import Mathlib

/-!
# Shallow embedding of the LPA* planner (`lpa_star.h`)

The repository ships the header `src/planner/graph_planner/include/lpa_star.h`,
which declares the LPA* planning engine: the `LNode` record (with `g` stored in
the inherited `cost` field, the one-step lookahead `rhs`, the scalar priority
`key`), the ascending `std::multimap` open list, and the methods `getH`,
`calculateKey`, `isCollision`, `getNeighbours`, `getCost`, `updateVertex`,
`computeShortestPath`, `extractPath` and `plan`.  The sentinel `INF = 10000`
and the constructor defaults come directly from the header.

The method bodies are not part of the sources, so every operational
definition below whose doc comment starts with `Modelled from the spec:`
is a faithful translation of the corresponding section of the
natural-language specification (§4.1–§4.7) rather than of C++ code.
Doubles are modelled as `ℕ` with the classic integer grid scale: straight
moves cost 10, diagonal moves 14, and the heuristic is the octile distance
on the same scale (the spec leaves the concrete admissible metric open,
"e.g. octile/Euclidean").  The raw costmap is a function `Pos → ℕ`; the
C++ type `unsigned char` bounds genuine inputs by 255.
-/

/-- Grid coordinates (may be out of bounds, hence `ℤ`). -/
abbrev Pos : Type := ℤ × ℤ

/-- The "infinity" sentinel, `#define INF 10000` in `lpa_star.h`. -/
def INF : ℕ := 10000

/-- The reserved lethal/blocked raw-cost marker (ROS costmap convention). -/
def lethalCost : ℕ := 254

/-- Addition saturating at the `INF` sentinel ("capped addition, not raw
summation" in §4.1 of the spec). -/
def cappedAdd (a b : ℕ) : ℕ := min (a + b) INF

/-- Modelled from the spec: `heuristic(a, b)` (§4.1), the octile distance on
the 10/14 grid scale; a pure function of the two coordinates.  Source method
`LPAStar::getH`. -/
def getH (u v : Pos) : ℕ :=
  let dx := (u.1 - v.1).natAbs
  let dy := (u.2 - v.2).natAbs
  14 * min dx dy + 10 * (max dx dy - min dx dy)

/-- A move between two distinct cells is diagonal when both coordinates
change. -/
def isDiagonal (a b : Pos) : Bool := decide (a.1 ≠ b.1) && decide (a.2 ≠ b.2)

/-- Modelled from the spec: `isBlocked(a, b)` (§4.1): true if the segment
between the adjacent cells crosses a lethal cell, including the two flanking
orthogonal cells of a diagonal move (corner cutting is rejected).  Source
method `LPAStar::isCollision`. -/
def isCollision (curr : Pos → ℕ) (a b : Pos) : Bool :=
  decide (lethalCost ≤ curr a) || decide (lethalCost ≤ curr b) ||
    (isDiagonal a b &&
      (decide (lethalCost ≤ curr (a.1, b.2)) || decide (lethalCost ≤ curr (b.1, a.2))))

/-- Base movement cost: 10 for a straight step, 14 for a diagonal step. -/
def baseCost (a b : Pos) : ℕ := if isDiagonal a b then 14 else 10

/-- Modelled from the spec: `edgeCost(a, b)` (§4.1): the `INF` sentinel if the
move collides, otherwise the base movement cost combined with the raw
traversal cost of the destination cell by capped addition.  Source method
`LPAStar::getCost`. -/
def getCost (curr : Pos → ℕ) (a b : Pos) : ℕ :=
  if isCollision curr a b then INF else cappedAdd (baseCost a b) (curr b)

/-- The eight neighbour offsets, in a fixed enumeration order. -/
def nbrOffsets : List Pos :=
  [(-1, -1), (-1, 0), (-1, 1), (0, -1), (0, 1), (1, -1), (1, 0), (1, 1)]

/-- Bounds test: `0 ≤ x < nx ∧ 0 ≤ y < ny`. -/
def inBounds (nx ny : ℕ) (p : Pos) : Bool :=
  decide (0 ≤ p.1) && decide (p.1 < (nx : ℤ)) && decide (0 ≤ p.2) && decide (p.2 < (ny : ℤ))

/-- Modelled from the spec: `neighbors(u)` (§4.1): the up-to-8 grid-adjacent
coordinates of `u` that lie within the grid bounds.  Source method
`LPAStar::getNeighbours`. -/
def getNeighbours (nx ny : ℕ) (u : Pos) : List Pos :=
  (nbrOffsets.map (fun d => (u.1 + d.1, u.2 + d.2))).filter (fun v => inBounds nx ny v)

/-- The search-session state (§3 "Session State"): grid dimensions, the two
raw cost snapshots, the `g` and `rhs` estimates of every node (unvisited
slots read as the default `INF`), the open list, start, goal, and whether a
session has been started. -/
structure PState where
  nx : ℕ
  ny : ℕ
  curr : Pos → ℕ
  last : Pos → ℕ
  g : Pos → ℕ
  rhs : Pos → ℕ
  ol : List (ℕ × Pos)
  start : Pos
  goal : Pos
  started : Bool

/-- The scalar priority `min(g(u), rhs(u)) + heuristic(u, goal)`, expressed
over explicit `g`/`rhs`/goal arguments. -/
def calcKey (g rhs : Pos → ℕ) (gl u : Pos) : ℕ := min (g u) (rhs u) + getH u gl

/-- Modelled from the spec: `calculateKey(s)` (§4.4 item 3), the single
scalar open-list priority.  Source method `LPAStar::calculateKey`. -/
def calculateKey (s : PState) (u : Pos) : ℕ := calcKey s.g s.rhs s.goal u

/-- Insertion into the ascending open list, after any entries of equal key
(`std::multimap` insertion order). -/
def olInsert (k : ℕ) (v : Pos) : List (ℕ × Pos) → List (ℕ × Pos)
  | [] => [(k, v)]
  | e :: t => if k < e.1 then (k, v) :: e :: t else e :: olInsert k v t

/-- Removal of a member by its node reference (§4.3 "remove-by-reference"
via the stored iterator `LNode::open_it`; the engine keeps at most one entry
per node). -/
def olRemove (v : Pos) (l : List (ℕ × Pos)) : List (ℕ × Pos) :=
  l.filter (fun e => decide (e.2 ≠ v))

/-- The minimum over all predecessors `p` of `cappedAdd (g p) (edgeCost p u)`;
`INF` when no predecessor yields a finite value (§4.4 item 1). -/
def minRhs (nx ny : ℕ) (curr g : Pos → ℕ) (u : Pos) : ℕ :=
  ((getNeighbours nx ny u).map (fun p => cappedAdd (g p) (getCost curr p u))).foldl min INF

/-- Modelled from the spec: `updateVertex(u)` (§4.4): recompute `rhs(u)` from
the predecessors unless `u` is the start node (whose `rhs` stays pinned),
remove `u` from the open list if present, and re-insert it with key
`min(g(u), rhs(u)) + heuristic(u, goal)` exactly when `g(u) ≠ rhs(u)`.
Source method `LPAStar::updateVertex`. -/
def updateVertex (s : PState) (u : Pos) : PState :=
  let r := if u = s.start then s.rhs u else minRhs s.nx s.ny s.curr s.g u
  let rhs' := fun p => if p = u then r else s.rhs p
  let l := olRemove u s.ol
  { s with rhs := rhs',
           ol := if s.g u ≠ r then olInsert (calcKey s.g rhs' s.goal u) u l else l }

/-- Overwrite the `g` value of a single node. -/
def setG (s : PState) (u : Pos) (v : ℕ) : PState :=
  { s with g := fun p => if p = u then v else s.g p }

/-- Modelled from the spec: `computeShortestPath()` (§4.5): while the open
list is non-empty and (the minimum key is below `key(goal)` or the goal is
inconsistent), pop the minimum-key node `u`; if overconsistent set
`g(u) := rhs(u)` and update every neighbour, otherwise set `g(u) := INF` and
update `u` and then every neighbour.  The C++ `while` loop is modelled with
explicit fuel; with the loop condition false the state is returned
unchanged.  Source method `LPAStar::computeShortestPath`. -/
def computeShortestPath : ℕ → PState → PState
  | 0, s => s
  | f + 1, s =>
    match s.ol with
    | [] => s
    | (k, u) :: rest =>
      if k < calculateKey s s.goal ∨ s.rhs s.goal ≠ s.g s.goal then
        let s₁ : PState := { s with ol := rest }
        let s₂ : PState :=
          if s₁.g u > s₁.rhs u then
            (getNeighbours s₁.nx s₁.ny u).foldl updateVertex (setG s₁ u (s₁.rhs u))
          else
            (getNeighbours s₁.nx s₁.ny u).foldl updateVertex (updateVertex (setG s₁ u INF) u)
        computeShortestPath f s₂
      else s

/-- The loop condition of `computeShortestPath` is false: the open list is
empty, or its minimum key is not below `key(goal)` and the goal is
consistent. -/
def loopDone (s : PState) : Bool :=
  match s.ol with
  | [] => true
  | (k, _) :: _ =>
    !(decide (k < calculateKey s s.goal) || decide (s.rhs s.goal ≠ s.g s.goal))

/-- The neighbour of `cur` minimising `cappedAdd (g p) (edgeCost p cur)`
(first such neighbour in enumeration order), used by the path walk. -/
def pickMin (nx ny : ℕ) (curr g : Pos → ℕ) (cur : Pos) : Option Pos :=
  match getNeighbours nx ny cur with
  | [] => none
  | p :: ps =>
    some (ps.foldl
      (fun best q =>
        if cappedAdd (g q) (getCost curr q cur) < cappedAdd (g best) (getCost curr best cur)
        then q else best) p)

/-- Modelled from the spec: the greedy backward walk of `extractPath` (§4.6):
from the goal, repeatedly step to the neighbour minimising
`g(p) + edgeCost(p, current)`, prepending each visited coordinate, and
recording every visited coordinate as expanded; fails when the bounded step
count runs out before the start is reached. -/
def walkBack (nx ny : ℕ) (curr g : Pos → ℕ) (st : Pos) :
    ℕ → Pos → List Pos → List Pos → Option (List Pos) × List Pos
  | 0, cur, _, vis => (none, (cur :: vis).reverse)
  | f + 1, cur, acc, vis =>
    if cur = st then (some (cur :: acc), (cur :: vis).reverse)
    else
      match pickMin nx ny curr g cur with
      | none => (none, (cur :: vis).reverse)
      | some p => walkBack nx ny curr g st f p (cur :: acc) (cur :: vis)

/-- Modelled from the spec: `extractPath(start, goal)` (§4.6), with the step
bound taken as the number of grid cells.  Returns the extracted path (or
`none` on failure) together with the visited ("expanded") coordinates.
Source method `LPAStar::extractPath`. -/
def extractPath (s : PState) : Option (List Pos) × List Pos :=
  walkBack s.nx s.ny s.curr s.g s.start (s.nx * s.ny + 1) s.goal [] []

/-- Modelled from the spec: session reset and seeding (§4.2 `reset`, §4.7
step 1): discard all nodes and the open list, create fresh nodes with
`g = rhs = INF`, pin `rhs(start) = 0` (§3, §4.4) and queue the start node —
the `updateVertex`-equivalent initialisation.  Source methods
`LPAStar::reset` / `LPAStar::initMap`. -/
def reset (s : PState) (costs : Pos → ℕ) (st gl : Pos) : PState :=
  { nx := s.nx, ny := s.ny, curr := costs, last := costs,
    g := fun _ => INF, rhs := fun p => if p = st then 0 else INF,
    ol := [(getH st gl, st)], start := st, goal := gl, started := true }

/-- All in-bounds grid cells in row-major enumeration order. -/
def gridCells (nx ny : ℕ) : List Pos :=
  (List.range ny).flatMap (fun y => (List.range nx).map (fun x => ((x : ℤ), (y : ℤ))))

/-- Modelled from the spec: §4.7 step 2: for every grid edge whose cost
changed between the previous and the current snapshot, call `updateVertex`
on both endpoints — i.e. on every changed cell and on each of its
neighbours. -/
def seedChanged (s : PState) (oldCosts newCosts : Pos → ℕ) : PState :=
  ((gridCells s.nx s.ny).filter (fun c => decide (oldCosts c ≠ newCosts c))).foldl
    (fun t c => (getNeighbours t.nx t.ny c).foldl updateVertex (updateVertex t c)) s

/-- Modelled from the spec: §4.7 step 1: reset the session when it is fresh
or the goal changed, otherwise install the new cost array and seed the
changed edges. -/
def prepare (s : PState) (costs : Pos → ℕ) (st gl : Pos) : PState :=
  if s.started && decide (s.goal = gl) then
    seedChanged { s with curr := costs, start := st } s.last costs
  else reset s costs st gl

/-- Modelled from the spec: §4.7 step 4: when `g(goal)` is finite, extract
the path and report success with the path and the expanded nodes; every
failure mode reports `found = false` with an empty path. -/
def finishPlan (t : PState) (gl : Pos) : PState × Bool × List Pos × List Pos :=
  if t.g gl < INF then
    match extractPath t with
    | (some p, vis) => (t, true, p, vis)
    | (none, vis) => (t, false, [], vis)
  else (t, false, [], [])

/-- Modelled from the spec: `plan(costs, start, goal, expand)` (§4.7, §7):
reject out-of-bounds start/goal before any search work; prepare the session
(reset or incremental seeding); run `computeShortestPath`; store the cost
array as "previous"; extract the path when `g(goal)` is finite.  Every
failure mode yields `found = false` with an empty path.  Source method
`LPAStar::plan`. -/
def plan (f : ℕ) (s : PState) (costs : Pos → ℕ) (st gl : Pos) :
    PState × Bool × List Pos × List Pos :=
  if inBounds s.nx s.ny st && inBounds s.nx s.ny gl then
    finishPlan
      { computeShortestPath f (prepare s costs st gl) with last := costs, started := true } gl
  else (s, false, [], [])

/-- The `LNode` record of `lpa_star.h` (fields of `Node` plus `rhs` and
`key`; the stored open-list iterator is represented by the open list itself
in `PState`). -/
structure LNode where
  x : ℤ
  y : ℤ
  cost : ℕ
  h_cost : ℕ
  id : ℤ
  pid : ℤ
  rhs : ℕ
  key : ℕ

/-- The `LNode` constructor value with every argument left at its default
(`lpa_star.h` lines 159–163): `x = 0`, `y = 0`, `cost = INF`,
`h_cost = INF`, `id = 0`, `pid = -1`, `rhs = INF`, `key = INF`. -/
def LNode.default : LNode :=
  { x := 0, y := 0, cost := INF, h_cost := INF, id := 0, pid := -1, rhs := INF, key := INF }

/-- A node has an entry in the open list. -/
def olHas (l : List (ℕ × Pos)) (p : Pos) : Prop := ∃ e ∈ l, e.2 = p

/-- The open list holds exactly the inconsistent nodes (§3, §8). -/
def OpenInv (s : PState) : Prop := ∀ p : Pos, olHas s.ol p ↔ s.g p ≠ s.rhs p

/-- Each node has at most one open-list entry. -/
def OpenNodup (s : PState) : Prop := (s.ol.map Prod.snd).Nodup

/-- Ordering of open-list entries by key. -/
def keyLe (a b : ℕ × Pos) : Prop := a.1 ≤ b.1

/-- The open list is sorted ascending by key. -/
def OpenSorted (s : PState) : Prop := s.ol.Pairwise keyLe

/-- The open-list/consistency invariant: the open list is an ascending
priority queue with at most one entry per node, holding exactly the
inconsistent nodes. -/
def SearchInv (s : PState) : Prop := OpenSorted s ∧ OpenNodup s ∧ OpenInv s

/-- The frame of a session state: every component that the search loop never
modifies. -/
def frame (s : PState) : (ℕ × ℕ) × (Pos → ℕ) × (Pos → ℕ) × (Pos × Pos) × Bool :=
  ((s.nx, s.ny), s.curr, s.last, (s.start, s.goal), s.started)

/-! ### Concrete planning scenarios

`stateA` is a fresh session on a 3×2 grid with a uniformly free costmap;
the second call raises the raw cost of cell `(1, 0)` to 5.  `stateB` is a
fresh session on a 12×13 grid whose only free cells are a start/goal
cluster and a single long, expensive corridor; the second call blocks the
corridor cell `(2, 3)`. -/

/-- The all-free costmap of scenario A. -/
def zeroCosts : Pos → ℕ := fun _ => 0

/-- Scenario A after the edit: cell `(1, 0)` now costs 5. -/
def bumpCosts : Pos → ℕ := fun p => if p = ((1 : ℤ), (0 : ℤ)) then 5 else 0

/-- A fresh 3×2 session. -/
def stateA : PState :=
  { nx := 3, ny := 2, curr := zeroCosts, last := zeroCosts,
    g := fun _ => INF, rhs := fun _ => INF, ol := [],
    start := (0, 0), goal := (0, 0), started := false }

/-- Scenario A, first call: plan from `(0, 0)` to `(2, 0)` on the free map. -/
def runA1 : PState × Bool × List Pos × List Pos := plan 40 stateA zeroCosts (0, 0) (2, 0)

/-- Scenario A, second call: same start and goal after the cost edit. -/
def runA2 : PState × Bool × List Pos × List Pos := plan 40 runA1.1 bumpCosts (0, 0) (2, 0)

/-- The raw costmap of scenario B, row by row (row-major, 12 columns ×
13 rows): 254 is lethal; the free cells are the start `(0, 1)`, the cell
`(1, 1)`, the goal `(3, 2)`, the corridor tail `(2, 2)` and `(2, 3)` at
raw cost 200, and a 39-cell corridor (raw cost 55 for the first four
cells, 250 otherwise) that snakes around the border of the grid. -/
def rowsB : List (List ℕ) :=
  [ [254, 254, 254, 254, 254, 254, 254, 254, 254, 254, 254, 254],
    [  0,   0, 254, 254, 254, 254, 254, 254, 254, 254, 254, 254],
    [ 55, 254, 200,   0, 254, 254, 254, 254, 254, 254, 254, 254],
    [ 55, 254, 200, 254, 254, 254, 254, 254, 254, 254, 254, 254],
    [ 55, 254, 250, 254, 254, 254, 254, 254, 254, 254, 254, 254],
    [ 55, 254, 250, 254, 254, 254, 254, 254, 254, 254, 254, 254],
    [250, 254, 250, 250, 250, 250, 250, 250, 250, 250, 250, 250],
    [250, 254, 254, 254, 254, 254, 254, 254, 254, 254, 254, 250],
    [250, 254, 254, 254, 254, 254, 254, 254, 254, 254, 254, 250],
    [250, 254, 254, 254, 254, 254, 254, 254, 254, 254, 254, 250],
    [250, 254, 254, 254, 254, 254, 254, 254, 254, 254, 254, 250],
    [250, 254, 254, 254, 254, 254, 254, 254, 254, 254, 254, 250],
    [250, 250, 250, 250, 250, 250, 250, 250, 250, 250, 250, 250] ]

/-- Read a row-major costmap, treating coordinates outside the table as
lethal. -/
def costsOf (rows : List (List ℕ)) : Pos → ℕ := fun p =>
  if p.1 < 0 ∨ p.2 < 0 then lethalCost
  else (rows.getD p.2.toNat []).getD p.1.toNat lethalCost

/-- The scenario-B costmap before the edit. -/
def costsB : Pos → ℕ := costsOf rowsB

/-- The scenario-B costmap after the edit: corridor cell `(2, 3)` becomes
lethal. -/
def costsBBlocked : Pos → ℕ := fun c =>
  if c = ((2 : ℤ), (3 : ℤ)) then lethalCost else costsB c

/-- A fresh 12×13 session. -/
def stateB : PState :=
  { nx := 12, ny := 13, curr := costsB, last := costsB,
    g := fun _ => INF, rhs := fun _ => INF, ol := [],
    start := (0, 1), goal := (0, 1), started := false }

/-- Scenario B, first call: plan from `(0, 1)` to `(3, 2)` through the
corridor. -/
def runB1 : PState × Bool × List Pos × List Pos := plan 50 stateB costsB (0, 1) (3, 2)

/-- Scenario B, second call: same start and goal after the corridor is
blocked at `(2, 3)`. -/
def runB2 : PState × Bool × List Pos × List Pos := plan 5 runB1.1 costsBBlocked (0, 1) (3, 2)

/-- A minimal 2×1 session used by witnesses. -/
def stateW : PState :=
  { nx := 2, ny := 1, curr := zeroCosts, last := zeroCosts,
    g := fun _ => INF, rhs := fun _ => INF, ol := [],
    start := (0, 0), goal := (0, 0), started := false }

/-! ## Open-list lemmas -/

theorem olInsert_mem (k : ℕ) (v : Pos) (l : List (ℕ × Pos)) (e : ℕ × Pos) :
    e ∈ olInsert k v l ↔ e = (k, v) ∨ e ∈ l := by
  induction l with
  | nil => simp [olInsert]
  | cons a t ih =>
    by_cases h : k < a.1
    · simp [olInsert, h]
    · simp only [olInsert, if_neg h, List.mem_cons, ih]
      tauto

theorem olInsert_pairwise (k : ℕ) (v : Pos) (l : List (ℕ × Pos))
    (h : l.Pairwise keyLe) : (olInsert k v l).Pairwise keyLe := by
  induction l with
  | nil => simp [olInsert, List.pairwise_singleton]
  | cons a t ih =>
    rcases List.pairwise_cons.mp h with ⟨ha, ht⟩
    by_cases hk : k < a.1
    · rw [olInsert, if_pos hk]
      refine List.pairwise_cons.mpr ⟨?_, h⟩
      intro e he
      rcases List.mem_cons.mp he with rfl | he
      · exact le_of_lt hk
      · exact le_trans (le_of_lt hk) (ha e he)
    · rw [olInsert, if_neg hk]
      refine List.pairwise_cons.mpr ⟨?_, ih ht⟩
      intro e he
      rcases (olInsert_mem k v t e).mp he with rfl | he
      · exact not_lt.mp hk
      · exact ha e he

theorem olRemove_mem (v : Pos) (l : List (ℕ × Pos)) (e : ℕ × Pos) :
    e ∈ olRemove v l ↔ e ∈ l ∧ e.2 ≠ v := by
  simp [olRemove]

theorem olRemove_pairwise (v : Pos) (l : List (ℕ × Pos))
    (h : l.Pairwise keyLe) : (olRemove v l).Pairwise keyLe :=
  h.filter _

theorem olRemove_not_has (v : Pos) (l : List (ℕ × Pos)) : ¬ olHas (olRemove v l) v := by
  rintro ⟨e, he, rfl⟩
  exact ((olRemove_mem _ l e).mp he).2 rfl

theorem olInsert_map_snd_perm (k : ℕ) (v : Pos) (l : List (ℕ × Pos)) :
    ((olInsert k v l).map Prod.snd).Perm (v :: l.map Prod.snd) := by
  induction l with
  | nil => simp [olInsert]
  | cons a t ih =>
    by_cases h : k < a.1
    · simp [olInsert, h]
    · simp only [olInsert, if_neg h, List.map_cons]
      exact (List.Perm.cons a.2 ih).trans (List.Perm.swap v a.2 (t.map Prod.snd))

theorem olRemove_sublist (v : Pos) (l : List (ℕ × Pos)) :
    ((olRemove v l).map Prod.snd).Sublist (l.map Prod.snd) :=
  (List.filter_sublist l).map Prod.snd

/-- Claim C6: the open list is an ascending priority queue over (key, node)
pairs: the head of a sorted list is a minimum-key entry, insertion and
removal preserve sortedness, entries with duplicate keys coexist, and
removal by node reference removes exactly that node's entries. -/
theorem claim_C6 :
    (∀ (e₀ : ℕ × Pos) (t : List (ℕ × Pos)), (e₀ :: t).Pairwise keyLe →
      ∀ e ∈ e₀ :: t, e₀.1 ≤ e.1) ∧
    (∀ (k : ℕ) (v : Pos) (l : List (ℕ × Pos)), l.Pairwise keyLe →
      (olInsert k v l).Pairwise keyLe) ∧
    (∀ (v : Pos) (l : List (ℕ × Pos)), l.Pairwise keyLe →
      (olRemove v l).Pairwise keyLe) ∧
    (∀ (k : ℕ) (v : Pos) (l : List (ℕ × Pos)),
      (k, v) ∈ olInsert k v l ∧ ∀ e ∈ l, e ∈ olInsert k v l) ∧
    (∀ (v : Pos) (l : List (ℕ × Pos)) (e : ℕ × Pos),
      e ∈ olRemove v l ↔ e ∈ l ∧ e.2 ≠ v) := by
  refine ⟨?_, olInsert_pairwise, olRemove_pairwise, ?_, olRemove_mem⟩
  · intro e₀ t h e he
    rcases List.mem_cons.mp he with rfl | he
    · exact le_refl _
    · exact (List.pairwise_cons.mp h).1 e he
  · intro k v l
    constructor
    · exact (olInsert_mem k v l (k, v)).mpr (Or.inl rfl)
    · intro e he
      exact (olInsert_mem k v l e).mpr (Or.inr he)

/-- Witness for C6 at a concrete sorted two-element list with a duplicate
key. -/
theorem claim_C6_witness :
    (olInsert 3 ((5 : ℤ), (5 : ℤ)) [(3, ((0 : ℤ), (0 : ℤ))), (4, ((1 : ℤ), (0 : ℤ)))]).Pairwise keyLe ∧
    (3, ((5 : ℤ), (5 : ℤ))) ∈ olInsert 3 ((5 : ℤ), (5 : ℤ)) [(3, ((0 : ℤ), (0 : ℤ))), (4, ((1 : ℤ), (0 : ℤ)))] := by
  constructor
  · exact claim_C6.2.1 3 (5, 5) _ (by simp [keyLe, List.pairwise_cons])
  · exact (claim_C6.2.2.2.1 3 (5, 5) _).1

/-- Claim C7: `getCost` returns the `INF` sentinel on collision and
otherwise combines the base movement cost with the destination's raw cost
by saturating addition: the result never exceeds `INF`, and an already
infinite input cost leaves the result at the sentinel. -/
theorem claim_C7 (curr : Pos → ℕ) (a b : Pos) :
    getCost curr a b ≤ INF ∧
    (isCollision curr a b = true → getCost curr a b = INF) ∧
    (isCollision curr a b = false → getCost curr a b = cappedAdd (baseCost a b) (curr b)) ∧
    (INF ≤ curr b → getCost curr a b = INF) := by
  refine ⟨?_, ?_, ?_, ?_⟩
  · by_cases h : isCollision curr a b <;> simp [getCost, h, cappedAdd]
  · intro h; simp [getCost, h]
  · intro h; simp [getCost, h]
  · intro h
    by_cases hc : isCollision curr a b
    · simp [getCost, hc]
    · have : INF ≤ baseCost a b + curr b := le_trans h (Nat.le_add_left _ _)
      simp [getCost, hc, cappedAdd, Nat.min_eq_right this]

/-- Witness for C7: a free straight edge and an edge with an
already-infinite input cost. -/
theorem claim_C7_witness :
    getCost zeroCosts ((0 : ℤ), (0 : ℤ)) ((1 : ℤ), (0 : ℤ)) =
      cappedAdd (baseCost ((0 : ℤ), (0 : ℤ)) ((1 : ℤ), (0 : ℤ))) 0 ∧
    getCost (fun _ => INF) ((0 : ℤ), (0 : ℤ)) ((1 : ℤ), (0 : ℤ)) = INF := by
  constructor
  · exact (claim_C7 zeroCosts (0, 0) (1, 0)).2.2.1 (by decide)
  · exact (claim_C7 (fun _ => INF) (0, 0) (1, 0)).2.2.2 (le_refl INF)

/-- Claim C9: the default-constructed `LNode` has `cost = INF`,
`rhs = INF`, `key = INF` and `pid = -1`, and a freshly created session
gives every node `g = rhs = INF` (except the pinned `rhs(start) = 0`). -/
theorem claim_C9 :
    LNode.default.cost = INF ∧ LNode.default.rhs = INF ∧
    LNode.default.key = INF ∧ LNode.default.pid = -1 ∧
    (∀ (s : PState) (costs : Pos → ℕ) (st gl p : Pos),
      (reset s costs st gl).g p = INF) ∧
    (∀ (s : PState) (costs : Pos → ℕ) (st gl p : Pos), p ≠ st →
      (reset s costs st gl).rhs p = INF) := by
  refine ⟨rfl, rfl, rfl, rfl, fun _ _ _ _ _ => rfl, ?_⟩
  intro s costs st gl p hp
  simp [reset, hp]

/-- Witness for C9 at a concrete fresh session. -/
theorem claim_C9_witness :
    (reset stateW zeroCosts ((0 : ℤ), (0 : ℤ)) ((1 : ℤ), (0 : ℤ))).rhs ((1 : ℤ), (0 : ℤ)) = INF :=
  claim_C9.2.2.2.2.2 stateW zeroCosts (0, 0) (1, 0) (1, 0) (by decide)

/-- Claim C10: the "infinity" sentinel is the finite constant 10000;
capped addition hits the sentinel exactly when the true sum reaches 10000,
so a cost of 10000 is indistinguishable from unreachable; the raw sum of
two sentinels is 20000, beyond the sentinel, and only the capped sum stays
at it. -/
theorem claim_C10 :
    INF = 10000 ∧
    (∀ x y : ℕ, cappedAdd x y = INF ↔ 10000 ≤ x + y) ∧
    INF + INF = 20000 ∧ INF < INF + INF ∧ cappedAdd INF INF = INF ∧
    LNode.default.cost = 10000 := by
  refine ⟨rfl, ?_, rfl, by norm_num [INF], rfl, rfl⟩
  intro x y
  simp only [cappedAdd, INF]
  omega

/-- Witness for C10: a capped sum that reaches the sentinel. -/
theorem claim_C10_witness : cappedAdd 4000 6000 = INF :=
  (claim_C10.2.1 4000 6000).mpr (by norm_num)

/-! ## `updateVertex` characterisation -/

theorem updateVertex_frame (s : PState) (u : Pos) : frame (updateVertex s u) = frame s := rfl

theorem updateVertex_g (s : PState) (u : Pos) : (updateVertex s u).g = s.g := rfl

theorem setG_frame (s : PState) (u : Pos) (v : ℕ) : frame (setG s u v) = frame s := rfl

theorem setG_rhs (s : PState) (u : Pos) (v : ℕ) : (setG s u v).rhs = s.rhs := rfl

theorem setG_ol (s : PState) (u : Pos) (v : ℕ) : (setG s u v).ol = s.ol := rfl

theorem updateVertex_rhs_self (s : PState) (u : Pos) :
    (updateVertex s u).rhs u =
      if u = s.start then s.rhs u else minRhs s.nx s.ny s.curr s.g u := by
  simp [updateVertex]

theorem updateVertex_rhs_other (s : PState) (u q : Pos) (h : q ≠ u) :
    (updateVertex s u).rhs q = s.rhs q := by
  simp [updateVertex, h]

theorem updateVertex_ol_eq (s : PState) (u : Pos) :
    (updateVertex s u).ol =
      if s.g u ≠ (if u = s.start then s.rhs u else minRhs s.nx s.ny s.curr s.g u)
      then olInsert
        (min (s.g u) (if u = s.start then s.rhs u else minRhs s.nx s.ny s.curr s.g u) +
          getH u s.goal) u (olRemove u s.ol)
      else olRemove u s.ol := by
  simp [updateVertex, calcKey]

theorem updateVertex_ol_cases (s : PState) (u : Pos) :
    (updateVertex s u).ol =
      if s.g u ≠ (updateVertex s u).rhs u
      then olInsert (min (s.g u) ((updateVertex s u).rhs u) + getH u s.goal) u (olRemove u s.ol)
      else olRemove u s.ol := by
  rw [updateVertex_rhs_self]
  exact updateVertex_ol_eq s u

theorem updateVertex_entry_key (s : PState) (u : Pos) :
    ∀ e ∈ (updateVertex s u).ol, e.2 = u →
      e = (min (s.g u) ((updateVertex s u).rhs u) + getH u s.goal, u) := by
  intro e he h2
  rw [updateVertex_ol_cases] at he
  by_cases hg : s.g u ≠ (updateVertex s u).rhs u
  · rw [if_pos hg] at he
    rcases (olInsert_mem _ _ _ _).mp he with rfl | he
    · rfl
    · exact absurd h2 ((olRemove_mem _ _ _).mp he).2
  · rw [if_neg hg] at he
    exact absurd h2 ((olRemove_mem _ _ _).mp he).2

theorem updateVertex_olHas_self (s : PState) (u : Pos) :
    olHas (updateVertex s u).ol u ↔ s.g u ≠ (updateVertex s u).rhs u := by
  rw [updateVertex_ol_cases]
  constructor
  · rintro ⟨e, he, rfl⟩
    by_cases hg : s.g e.2 ≠ (updateVertex s e.2).rhs e.2
    · exact hg
    · rw [if_neg hg] at he
      exact absurd rfl ((olRemove_mem _ _ _).mp he).2
  · intro hg
    rw [if_pos hg]
    exact ⟨(min (s.g u) ((updateVertex s u).rhs u) + getH u s.goal, u),
      (olInsert_mem _ _ _ _).mpr (Or.inl rfl), rfl⟩

theorem updateVertex_olHas_other (s : PState) (u p : Pos) (hp : p ≠ u) :
    olHas (updateVertex s u).ol p ↔ olHas s.ol p := by
  rw [updateVertex_ol_cases]
  constructor
  · rintro ⟨e, he, rfl⟩
    by_cases hg : s.g u ≠ (updateVertex s u).rhs u
    · rw [if_pos hg] at he
      rcases (olInsert_mem _ _ _ _).mp he with rfl | he
      · exact absurd rfl hp
      · exact ⟨e, ((olRemove_mem _ _ _).mp he).1, rfl⟩
    · rw [if_neg hg] at he
      exact ⟨e, ((olRemove_mem _ _ _).mp he).1, rfl⟩
  · rintro ⟨e, he, rfl⟩
    by_cases hg : s.g u ≠ (updateVertex s u).rhs u
    · rw [if_pos hg]
      exact ⟨e, (olInsert_mem _ _ _ _).mpr (Or.inr ((olRemove_mem _ _ _).mpr ⟨he, hp⟩)), rfl⟩
    · rw [if_neg hg]
      exact ⟨e, (olRemove_mem _ _ _).mpr ⟨he, hp⟩, rfl⟩

/-! ## Minimum-fold lemmas -/

theorem foldl_min_le_init (l : List ℕ) (a : ℕ) : l.foldl min a ≤ a := by
  induction l generalizing a with
  | nil => exact le_refl a
  | cons b t ih => exact le_trans (ih (min a b)) (min_le_left a b)

theorem foldl_min_le_mem (l : List ℕ) (a x : ℕ) (hx : x ∈ l) : l.foldl min a ≤ x := by
  induction l generalizing a with
  | nil => cases hx
  | cons b t ih =>
    rcases List.mem_cons.mp hx with rfl | hx
    · exact le_trans (foldl_min_le_init t (min a x)) (min_le_right a x)
    · exact ih (min a b) hx

theorem foldl_min_eq_init_or_mem (l : List ℕ) (a : ℕ) :
    l.foldl min a = a ∨ ∃ x ∈ l, l.foldl min a = x := by
  induction l generalizing a with
  | nil => exact Or.inl rfl
  | cons b t ih =>
    rcases ih (min a b) with h | ⟨x, hx, h⟩
    · rcases min_choice a b with hm | hm
      · exact Or.inl (by rw [List.foldl_cons, h, hm])
      · exact Or.inr ⟨b, List.mem_cons_self b t, by rw [List.foldl_cons, h, hm]⟩
    · exact Or.inr ⟨x, List.mem_cons_of_mem b hx, h⟩

theorem minRhs_le (nx ny : ℕ) (curr g : Pos → ℕ) (u p : Pos)
    (hp : p ∈ getNeighbours nx ny u) :
    minRhs nx ny curr g u ≤ cappedAdd (g p) (getCost curr p u) :=
  foldl_min_le_mem _ _ _ (List.mem_map_of_mem _ hp)

theorem minRhs_le_INF (nx ny : ℕ) (curr g : Pos → ℕ) (u : Pos) :
    minRhs nx ny curr g u ≤ INF :=
  foldl_min_le_init _ _

theorem minRhs_cases (nx ny : ℕ) (curr g : Pos → ℕ) (u : Pos) :
    minRhs nx ny curr g u = INF ∨
      ∃ p ∈ getNeighbours nx ny u,
        minRhs nx ny curr g u = cappedAdd (g p) (getCost curr p u) := by
  rcases foldl_min_eq_init_or_mem
      ((getNeighbours nx ny u).map (fun p => cappedAdd (g p) (getCost curr p u))) INF with
    h | ⟨x, hx, h⟩
  · exact Or.inl h
  · rcases List.mem_map.mp hx with ⟨p, hp, rfl⟩
    exact Or.inr ⟨p, hp, h⟩

/-- Claim C3: `updateVertex u` recomputes `rhs(u)` as the minimum over the
predecessors of `g(p) + edgeCost(p, u)` (capped at the `INF` sentinel, which
is the result when no predecessor yields a finite value) unless `u` is the
start node, whose `rhs` stays pinned (0 if it was 0); it leaves `g` and all
other `rhs` values unchanged; every surviving open-list entry of `u` carries
the key `min(g(u), rhs(u)) + heuristic(u, goal)` computed from the new
`rhs`, and `u` is in the open list afterwards iff `g(u) ≠ rhs(u)`. -/
theorem claim_C3 (s : PState) (u : Pos) :
    ((updateVertex s u).g = s.g) ∧
    (u ≠ s.start → (updateVertex s u).rhs u = minRhs s.nx s.ny s.curr s.g u) ∧
    (u ≠ s.start → ∀ p ∈ getNeighbours s.nx s.ny u,
      (updateVertex s u).rhs u ≤ cappedAdd (s.g p) (getCost s.curr p u)) ∧
    (u ≠ s.start → ((updateVertex s u).rhs u = INF ∨
      ∃ p ∈ getNeighbours s.nx s.ny u,
        (updateVertex s u).rhs u = cappedAdd (s.g p) (getCost s.curr p u))) ∧
    (u = s.start → s.rhs s.start = 0 → (updateVertex s u).rhs u = 0) ∧
    (∀ q, q ≠ u → (updateVertex s u).rhs q = s.rhs q) ∧
    (∀ e ∈ (updateVertex s u).ol, e.2 = u →
      e = (min (s.g u) ((updateVertex s u).rhs u) + getH u s.goal, u)) ∧
    (olHas (updateVertex s u).ol u ↔ s.g u ≠ (updateVertex s u).rhs u) := by
  have hself := updateVertex_rhs_self s u
  refine ⟨rfl, ?_, ?_, ?_, ?_, fun q hq => updateVertex_rhs_other s u q hq, ?_, ?_⟩
  · intro h; rw [hself, if_neg h]
  · intro h p hp
    rw [hself, if_neg h]
    exact minRhs_le s.nx s.ny s.curr s.g u p hp
  · intro h
    rw [hself, if_neg h]
    exact minRhs_cases s.nx s.ny s.curr s.g u
  · intro h h0; rw [hself, if_pos h, h, h0]
  · exact updateVertex_entry_key s u
  · exact updateVertex_olHas_self s u

/-- Witness for C3: updating the non-start node `(1, 0)` of the fresh 2×1
session recomputes its `rhs` as the predecessor minimum. -/
theorem claim_C3_witness :
    (updateVertex stateW ((1 : ℤ), (0 : ℤ))).rhs ((1 : ℤ), (0 : ℤ)) =
      minRhs stateW.nx stateW.ny stateW.curr stateW.g ((1 : ℤ), (0 : ℤ)) ∧
    (updateVertex (reset stateW zeroCosts (0, 0) (1, 0)) ((0 : ℤ), (0 : ℤ))).rhs
      ((0 : ℤ), (0 : ℤ)) = 0 := by
  constructor
  · exact (claim_C3 stateW (1, 0)).2.1 (by decide)
  · exact (claim_C3 (reset stateW zeroCosts (0, 0) (1, 0)) (0, 0)).2.2.2.2.1 (by decide)
      (by decide)

/-! ## Open-list/consistency invariant preservation -/

theorem olHas_iff_mem_map (l : List (ℕ × Pos)) (p : Pos) :
    olHas l p ↔ p ∈ l.map Prod.snd := by
  simp [olHas, List.mem_map]

theorem setG_g_self (s : PState) (u : Pos) (v : ℕ) : (setG s u v).g u = v := by
  simp [setG]

theorem setG_g_other (s : PState) (u : Pos) (v : ℕ) (p : Pos) (h : p ≠ u) :
    (setG s u v).g p = s.g p := by
  simp [setG, h]

theorem updateVertex_nodup (s : PState) (u : Pos) (h : OpenNodup s) :
    OpenNodup (updateVertex s u) := by
  unfold OpenNodup at *
  rw [updateVertex_ol_cases]
  by_cases hg : s.g u ≠ (updateVertex s u).rhs u
  · rw [if_pos hg]
    refine (olInsert_map_snd_perm _ _ _).nodup_iff.mpr ?_
    refine List.nodup_cons.mpr ⟨?_, (olRemove_sublist u s.ol).nodup h⟩
    intro hu
    exact olRemove_not_has u s.ol ((olHas_iff_mem_map _ _).mpr hu)
  · rw [if_neg hg]
    exact (olRemove_sublist u s.ol).nodup h

theorem updateVertex_sorted (s : PState) (u : Pos) (h : OpenSorted s) :
    OpenSorted (updateVertex s u) := by
  unfold OpenSorted at *
  rw [updateVertex_ol_cases]
  by_cases hg : s.g u ≠ (updateVertex s u).rhs u
  · rw [if_pos hg]
    exact olInsert_pairwise _ _ _ (olRemove_pairwise _ _ h)
  · rw [if_neg hg]
    exact olRemove_pairwise _ _ h

theorem updateVertex_inv (s : PState) (u : Pos) (hS : OpenSorted s) (hN : OpenNodup s)
    (hO : ∀ p, p ≠ u → (olHas s.ol p ↔ s.g p ≠ s.rhs p)) :
    SearchInv (updateVertex s u) := by
  refine ⟨updateVertex_sorted s u hS, updateVertex_nodup s u hN, ?_⟩
  intro p
  by_cases hp : p = u
  · subst hp
    exact updateVertex_olHas_self s p
  · rw [updateVertex_olHas_other s u p hp, updateVertex_rhs_other s u p hp]
    exact hO p hp

theorem foldl_updateVertex_inv (l : List Pos) (t : PState) (h : SearchInv t) :
    SearchInv (l.foldl updateVertex t) := by
  induction l generalizing t with
  | nil => exact h
  | cons a l ih => exact ih _ (updateVertex_inv t a h.1 h.2.1 (fun p _ => h.2.2 p))

/-- Claim C1 (amended): `computeShortestPath` preserves the open-list
invariant — the open list is sorted, has at most one entry per node, and
holds exactly the inconsistent nodes. -/
theorem claim_C1_amended (f : ℕ) (s : PState) (h : SearchInv s) :
    SearchInv (computeShortestPath f s) := by
  induction f generalizing s with
  | zero => exact h
  | succ f ih =>
    obtain ⟨hS, hN, hO⟩ := h
    rcases hol : s.ol with _ | ⟨⟨k, u⟩, rest⟩
    · simp only [computeShortestPath, hol]
      exact ⟨hS, hN, hO⟩
    · have hS' : s.ol.Pairwise keyLe := hS
      have hN' : (s.ol.map Prod.snd).Nodup := hN
      have hSr : rest.Pairwise keyLe := (List.pairwise_cons.mp (hol ▸ hS')).2
      have hNr' : (u :: rest.map Prod.snd).Nodup := by
        have h2 := hol ▸ hN'
        simpa using h2
      have hNu : ¬ u ∈ rest.map Prod.snd := (List.nodup_cons.mp hNr').1
      have hNr : (rest.map Prod.snd).Nodup := (List.nodup_cons.mp hNr').2
      have hRestU : ¬ olHas rest u := by
        rintro ⟨e, he, h2⟩
        exact hNu (List.mem_map.mpr ⟨e, he, h2⟩)
      have hRest : ∀ p, p ≠ u → (olHas rest p ↔ s.g p ≠ s.rhs p) := by
        intro p hp
        rw [← hO p]
        constructor
        · rintro ⟨e, he, rfl⟩
          exact ⟨e, hol ▸ List.mem_cons_of_mem _ he, rfl⟩
        · rintro ⟨e, he, rfl⟩
          rcases List.mem_cons.mp (hol ▸ he) with rfl | he'
          · exact absurd rfl hp
          · exact ⟨e, he', rfl⟩
      simp only [computeShortestPath, hol]
      by_cases hc : k < calculateKey s s.goal ∨ s.rhs s.goal ≠ s.g s.goal
      · rw [if_pos hc]
        by_cases hgt : s.g u > s.rhs u
        · rw [if_pos hgt]
          apply ih
          apply foldl_updateVertex_inv
          refine ⟨hSr, hNr, ?_⟩
          intro p
          by_cases hp : p = u
          · subst hp
            constructor
            · intro hhas; exact absurd hhas hRestU
            · intro hne; exact absurd (by simp [setG]) hne
          · rw [setG_g_other _ _ _ p hp]
            exact hRest p hp
        · rw [if_neg hgt]
          apply ih
          apply foldl_updateVertex_inv
          refine updateVertex_inv _ u ?_ ?_ ?_
          · exact hSr
          · exact hNr
          · intro p hp
            rw [setG_g_other _ _ _ p hp]
            exact hRest p hp
      · rw [if_neg hc]
        exact ⟨hS, hN, hO⟩

/-- Witness for the amended C1 at a concrete fresh (hence invariant-
satisfying) session. -/
theorem claim_C1_amended_witness : SearchInv (computeShortestPath 3 stateW) := by
  apply claim_C1_amended
  refine ⟨?_, ?_, ?_⟩
  · exact List.Pairwise.nil
  · exact List.nodup_nil
  · intro p
    simp [stateW, olHas]

set_option maxRecDepth 40000 in
/-- Counterexample to claim C1 as stated: in scenario A the second `plan`
call leaves a state whose loop condition is false (`computeShortestPath`
terminated), yet the touched node `(1, 0)` — it sits in the open list — has
the finite value `g = 10` and `rhs = 15 ≠ g`.  The finite-`g` half of the
claimed invariant fails; only the open-list half survives. -/
theorem claim_C1_counterexample :
    loopDone runA2.1 = true ∧
    runA2.1.g ((1 : ℤ), (0 : ℤ)) < INF ∧
    runA2.1.g ((1 : ℤ), (0 : ℤ)) ≠ runA2.1.rhs ((1 : ℤ), (0 : ℤ)) ∧
    ((1 : ℤ), (0 : ℤ)) ∈ runA2.1.ol.map Prod.snd := by
  decide

/-- Claim C2: `computeShortestPath` returns the state unchanged when the
open list is empty or when the minimum key is not below `key(goal)` and the
goal is consistent; otherwise it pops the head `u` of the open list — a
minimum-key entry when the list is sorted — and, when `g(u) > rhs(u)`, sets
`g(u) := rhs(u)` and calls `updateVertex` on every neighbour, otherwise
sets `g(u) := INF` and calls `updateVertex` on `u` and then on every
neighbour, before iterating on the remaining fuel. -/
theorem claim_C2 (f : ℕ) (s : PState) :
    (s.ol = [] → computeShortestPath (f + 1) s = s) ∧
    (∀ (k : ℕ) (u : Pos) (rest : List (ℕ × Pos)), s.ol = (k, u) :: rest →
      (s.ol.Pairwise keyLe → ∀ e ∈ s.ol, k ≤ e.1) ∧
      (¬(k < calculateKey s s.goal ∨ s.rhs s.goal ≠ s.g s.goal) →
        computeShortestPath (f + 1) s = s) ∧
      ((k < calculateKey s s.goal ∨ s.rhs s.goal ≠ s.g s.goal) →
        computeShortestPath (f + 1) s =
          computeShortestPath f
            (if s.g u > s.rhs u then
              (getNeighbours s.nx s.ny u).foldl updateVertex
                (setG { s with ol := rest } u (s.rhs u))
            else
              (getNeighbours s.nx s.ny u).foldl updateVertex
                (updateVertex (setG { s with ol := rest } u INF) u)))) := by
  constructor
  · intro h
    simp only [computeShortestPath, h]
  · intro k u rest hol
    refine ⟨?_, ?_, ?_⟩
    · intro hsort e he
      rw [hol] at hsort he
      rcases List.mem_cons.mp he with rfl | he
      · exact le_refl _
      · exact (List.pairwise_cons.mp hsort).1 e he
    · intro hc
      simp only [computeShortestPath, hol, if_neg hc]
    · intro hc
      simp only [computeShortestPath, hol, if_pos hc]

/-- Witness for C2 at an empty open list. -/
theorem claim_C2_witness : computeShortestPath 1 stateW = stateW :=
  (claim_C2 0 stateW).1 rfl

/-! ## Error handling (`plan` failure modes) -/

theorem finishPlan_fst (t : PState) (gl : Pos) : (finishPlan t gl).1 = t := by
  unfold finishPlan
  by_cases hg : t.g gl < INF
  · rw [if_pos hg]
    rcases hE : extractPath t with ⟨o, vis⟩
    rcases o with _ | p <;> simp [hE]
  · rw [if_neg hg]

theorem finishPlan_false_path (t : PState) (gl : Pos)
    (h : (finishPlan t gl).2.1 = false) : (finishPlan t gl).2.2.1 = [] := by
  unfold finishPlan at *
  by_cases hg : t.g gl < INF
  · rw [if_pos hg] at h ⊢
    rcases hE : extractPath t with ⟨o, vis⟩
    rcases o with _ | p
    · simp [hE]
    · rw [hE] at h
      simp at h
  · rw [if_neg hg]

theorem finishPlan_unreachable (t : PState) (gl : Pos) (h : INF ≤ t.g gl) :
    (finishPlan t gl).2.1 = false ∧ (finishPlan t gl).2.2.1 = [] := by
  unfold finishPlan
  rw [if_neg (not_lt.mpr h)]
  exact ⟨rfl, rfl⟩

theorem finishPlan_extract_none (t : PState) (gl : Pos)
    (h : (extractPath t).1 = none) :
    (finishPlan t gl).2.1 = false ∧ (finishPlan t gl).2.2.1 = [] := by
  unfold finishPlan
  by_cases hg : t.g gl < INF
  · rw [if_pos hg]
    rcases hE : extractPath t with ⟨o, vis⟩
    rw [hE] at h
    rcases o with _ | p
    · simp
    · simp at h
  · rw [if_neg hg]
    exact ⟨rfl, rfl⟩

/-- Claim C4: `plan` reports every failure mode as `found = false` with an
empty path: out-of-bounds start or goal is rejected up front with the
session state untouched, an unreachable goal (`g(goal)` still at the
sentinel after the loop) fails, and a failed path-extraction walk fails.
(`plan` is a total function, so no exception can escape it.) -/
theorem claim_C4 (f : ℕ) (s : PState) (costs : Pos → ℕ) (st gl : Pos) :
    ((inBounds s.nx s.ny st && inBounds s.nx s.ny gl) = false →
      plan f s costs st gl = (s, false, [], [])) ∧
    ((plan f s costs st gl).2.1 = false → (plan f s costs st gl).2.2.1 = []) ∧
    ((inBounds s.nx s.ny st && inBounds s.nx s.ny gl) = true →
      INF ≤ (plan f s costs st gl).1.g gl →
      (plan f s costs st gl).2.1 = false ∧ (plan f s costs st gl).2.2.1 = []) ∧
    ((inBounds s.nx s.ny st && inBounds s.nx s.ny gl) = true →
      (extractPath (plan f s costs st gl).1).1 = none →
      (plan f s costs st gl).2.1 = false ∧ (plan f s costs st gl).2.2.1 = []) := by
  by_cases hb : (inBounds s.nx s.ny st && inBounds s.nx s.ny gl) = true
  · have hplan : plan f s costs st gl =
        finishPlan
          { computeShortestPath f (prepare s costs st gl) with
              last := costs, started := true } gl := by
      simp only [plan, hb, if_true]
    refine ⟨?_, ?_, ?_, ?_⟩
    · intro h; rw [hb] at h; cases h
    · rw [hplan]; exact finishPlan_false_path _ gl
    · intro _ h
      rw [hplan] at h ⊢
      rw [finishPlan_fst] at h
      exact finishPlan_unreachable _ gl h
    · intro _ h
      rw [hplan] at h ⊢
      rw [finishPlan_fst] at h
      exact finishPlan_extract_none _ gl h
  · have hb' : (inBounds s.nx s.ny st && inBounds s.nx s.ny gl) = false :=
      Bool.eq_false_iff.mpr hb
    have hplan : plan f s costs st gl = (s, false, [], []) := by
      simp only [plan, hb', Bool.false_eq_true, if_false]
    refine ⟨fun _ => hplan, ?_, ?_, ?_⟩
    · rw [hplan]; intro _; rfl
    · intro h; rw [hb'] at h; cases h
    · intro h; rw [hb'] at h; cases h

/-- Witness for C4: an out-of-bounds start is rejected with the state
untouched. -/
theorem claim_C4_witness :
    plan 3 stateW zeroCosts ((-1 : ℤ), (0 : ℤ)) ((0 : ℤ), (0 : ℤ)) = (stateW, false, [], []) :=
  (claim_C4 3 stateW zeroCosts ((-1 : ℤ), (0 : ℤ)) ((0 : ℤ), (0 : ℤ))).1 (by decide)

/-! ## Determinism of consecutive identical `plan` calls -/

theorem frame_nx {a b : PState} (h : frame a = frame b) : a.nx = b.nx :=
  congrArg (fun x => x.1.1) h

theorem frame_ny {a b : PState} (h : frame a = frame b) : a.ny = b.ny :=
  congrArg (fun x => x.1.2) h

theorem frame_curr {a b : PState} (h : frame a = frame b) : a.curr = b.curr :=
  congrArg (fun x => x.2.1) h

theorem frame_start {a b : PState} (h : frame a = frame b) : a.start = b.start :=
  congrArg (fun x => x.2.2.2.1.1) h

theorem frame_goal {a b : PState} (h : frame a = frame b) : a.goal = b.goal :=
  congrArg (fun x => x.2.2.2.1.2) h

theorem foldl_updateVertex_frame (l : List Pos) (t : PState) :
    frame (l.foldl updateVertex t) = frame t := by
  induction l generalizing t with
  | nil => rfl
  | cons a l ih => rw [List.foldl_cons, ih, updateVertex_frame]

theorem csp_frame (f : ℕ) (s : PState) :
    frame (computeShortestPath f s) = frame s := by
  induction f generalizing s with
  | zero => rfl
  | succ f ih =>
    rcases hol : s.ol with _ | ⟨⟨k, u⟩, rest⟩
    · simp only [computeShortestPath, hol]
    · simp only [computeShortestPath, hol]
      by_cases hc : k < calculateKey s s.goal ∨ s.rhs s.goal ≠ s.g s.goal
      · rw [if_pos hc]
        split
        · rw [ih, foldl_updateVertex_frame, setG_frame]
          rfl
        · rw [ih, foldl_updateVertex_frame, updateVertex_frame, setG_frame]
          rfl
      · rw [if_neg hc]

theorem foldl_seed_frame (l : List Pos) (t : PState) :
    frame (l.foldl
      (fun t c => (getNeighbours t.nx t.ny c).foldl updateVertex (updateVertex t c)) t) =
      frame t := by
  induction l generalizing t with
  | nil => rfl
  | cons c l ih => rw [List.foldl_cons, ih, foldl_updateVertex_frame, updateVertex_frame]

theorem seedChanged_frame (t : PState) (oldCosts newCosts : Pos → ℕ) :
    frame (seedChanged t oldCosts newCosts) = frame t := by
  unfold seedChanged
  exact foldl_seed_frame _ t

theorem seedChanged_self (t : PState) (costs : Pos → ℕ) :
    seedChanged t costs costs = t := by
  unfold seedChanged
  have h : (gridCells t.nx t.ny).filter (fun c => decide (costs c ≠ costs c)) = [] := by
    simp
  rw [h]
  rfl

theorem prepare_goal (s : PState) (costs : Pos → ℕ) (st gl : Pos) :
    (prepare s costs st gl).goal = gl := by
  unfold prepare
  split
  · next h =>
    have h' := h
    rw [Bool.and_eq_true] at h'
    rw [frame_goal (seedChanged_frame _ _ _)]
    exact of_decide_eq_true h'.2
  · rfl

theorem prepare_curr (s : PState) (costs : Pos → ℕ) (st gl : Pos) :
    (prepare s costs st gl).curr = costs := by
  unfold prepare
  split
  · rw [frame_curr (seedChanged_frame _ _ _)]
  · rfl

theorem prepare_start (s : PState) (costs : Pos → ℕ) (st gl : Pos) :
    (prepare s costs st gl).start = st := by
  unfold prepare
  split
  · rw [frame_start (seedChanged_frame _ _ _)]
  · rfl

theorem prepare_nx (s : PState) (costs : Pos → ℕ) (st gl : Pos) :
    (prepare s costs st gl).nx = s.nx := by
  unfold prepare
  split
  · rw [frame_nx (seedChanged_frame _ _ _)]
  · rfl

theorem prepare_ny (s : PState) (costs : Pos → ℕ) (st gl : Pos) :
    (prepare s costs st gl).ny = s.ny := by
  unfold prepare
  split
  · rw [frame_ny (seedChanged_frame _ _ _)]
  · rfl

theorem csp_of_done (f : ℕ) (s : PState) (h : loopDone s = true) :
    computeShortestPath f s = s := by
  cases f with
  | zero => rfl
  | succ f =>
    rcases hol : s.ol with _ | ⟨⟨k, u⟩, rest⟩
    · simp only [computeShortestPath, hol]
    · have hc : ¬(k < calculateKey s s.goal ∨ s.rhs s.goal ≠ s.g s.goal) := by
        simp only [loopDone, hol, Bool.not_eq_true', Bool.or_eq_false_iff,
          decide_eq_false_iff_not] at h
        rintro (h1 | h2)
        · exact h.1 h1
        · exact h.2 h2
      simp only [computeShortestPath, hol, if_neg hc]

/-- Claim C5: two consecutive `plan` calls with the same cost array, start
and goal return identical `(found, path, expand)` results, provided the
first call's shortest-path loop ran to completion (its loop condition is
false in the resulting state — the C++ `while` loop always ends there). -/
theorem claim_C5 (f₁ f₂ : ℕ) (s : PState) (costs : Pos → ℕ) (st gl : Pos)
    (h : loopDone (plan f₁ s costs st gl).1 = true) :
    (plan f₂ (plan f₁ s costs st gl).1 costs st gl).2 = (plan f₁ s costs st gl).2 := by
  by_cases hb : (inBounds s.nx s.ny st && inBounds s.nx s.ny gl) = true
  · set t : PState :=
      { computeShortestPath f₁ (prepare s costs st gl) with last := costs, started := true }
      with ht
    have hplan1 : plan f₁ s costs st gl = finishPlan t gl := by
      simp only [plan, hb, if_true, ht]
    have hfst : (plan f₁ s costs st gl).1 = t := by rw [hplan1, finishPlan_fst]
    have hframe : frame (computeShortestPath f₁ (prepare s costs st gl)) =
        frame (prepare s costs st gl) := csp_frame f₁ _
    have htnx : t.nx = s.nx := (frame_nx hframe).trans (prepare_nx s costs st gl)
    have htny : t.ny = s.ny := (frame_ny hframe).trans (prepare_ny s costs st gl)
    have htgoal : t.goal = gl := (frame_goal hframe).trans (prepare_goal s costs st gl)
    have htcurr : t.curr = costs := (frame_curr hframe).trans (prepare_curr s costs st gl)
    have htstart : t.start = st := (frame_start hframe).trans (prepare_start s costs st gl)
    have hb' : (inBounds t.nx t.ny st && inBounds t.nx t.ny gl) = true := by
      rw [htnx, htny]; exact hb
    have hcond : (t.started && decide (t.goal = gl)) = true := by
      rw [htgoal]
      simp
    have hprep2 : prepare t costs st gl = t := by
      unfold prepare
      rw [if_pos hcond]
      have h1 : ({ t with curr := costs, start := st } : PState) = t := by
        rw [← htcurr, ← htstart]
      rw [h1, show t.last = costs from rfl, seedChanged_self]
    have hcsp2 : computeShortestPath f₂ t = t := csp_of_done f₂ t (hfst ▸ h)
    have ht2 : ({ computeShortestPath f₂ (prepare t costs st gl) with
        last := costs, started := true } : PState) = t := by
      rw [hprep2, hcsp2]
    have hplan2 : plan f₂ t costs st gl = finishPlan t gl := by
      simp only [plan, hb', if_true, ht2]
    rw [hfst, hplan2, hplan1]
  · have hb' : (inBounds s.nx s.ny st && inBounds s.nx s.ny gl) = false :=
      Bool.eq_false_iff.mpr hb
    have hplan1 : plan f₁ s costs st gl = (s, false, [], []) := by
      simp only [plan, hb', Bool.false_eq_true, if_false]
    have hplan2 : plan f₂ s costs st gl = (s, false, [], []) := by
      simp only [plan, hb', Bool.false_eq_true, if_false]
    rw [hplan1, hplan2]

set_option maxRecDepth 40000 in
/-- Witness for C5: replanning on the 3×2 grid with unchanged costs
reproduces the first result. -/
theorem claim_C5_witness :
    (plan 40 runA1.1 zeroCosts (0, 0) (2, 0)).2 = runA1.2 :=
  claim_C5 40 40 stateA zeroCosts (0, 0) (2, 0) (by decide)

/-! ## Corner cutting -/

/-- Claim C8 (amended): `isCollision` reports a collision for every diagonal
move whose two flanking orthogonal cells are both lethal (indeed already
when either flank is lethal).  The further claim that no such diagonal
segment can appear in a returned path is refuted by the scenario-B
counterexample. -/
theorem claim_C8_amended (curr : Pos → ℕ) (a b : Pos)
    (hx : a.1 ≠ b.1) (hy : a.2 ≠ b.2)
    (h1 : lethalCost ≤ curr (a.1, b.2)) (h2 : lethalCost ≤ curr (b.1, a.2)) :
    isCollision curr a b = true := by
  simp [isCollision, isDiagonal, hx, hy, h1, h2]

/-- Witness for the amended C8 at the concrete corner of scenario B. -/
theorem claim_C8_witness :
    isCollision costsBBlocked ((1 : ℤ), (1 : ℤ)) ((2 : ℤ), (2 : ℤ)) = true :=
  claim_C8_amended costsBBlocked (1, 1) (2, 2) (by decide) (by decide) (by decide) (by decide)

set_option maxRecDepth 100000 in
set_option maxHeartbeats 2000000 in
/-- Counterexample to claim C8 as stated: in scenario B both planning runs
terminate normally (the loop condition is false in both final states), the
second call returns `found = true` with the path
`[(0,1), (1,1), (2,2), (3,2)]`, and the step from `(1,1)` to `(2,2)` is a
diagonal move whose two flanking cells `(1,2)` and `(2,1)` are both lethal —
`isCollision` holds on it, yet it appears in the returned path, because
every neighbour candidate at `(2,2)` evaluates to the `INF` sentinel during
extraction, so the walk falls back to the first neighbour in enumeration
order. -/
theorem claim_C8_counterexample :
    runB2.2.1 = true ∧
    runB2.2.2.1 = [(0, 1), (1, 1), (2, 2), (3, 2)] ∧
    isCollision costsBBlocked (1, 1) (2, 2) = true ∧
    lethalCost ≤ costsBBlocked (1, 2) ∧ lethalCost ≤ costsBBlocked (2, 1) ∧
    loopDone runB1.1 = true ∧ loopDone runB2.1 = true := by
  decide
